import Mathlib

/-!
Verification of the two-pointer algorithms in `learn-go`:
`threeSum` (three_sum.go), `removeNthFromEnd`
(remove_nth_node_from_the_end_of_list.go) and `isPalindrome`
(is_palindromic.go).  Go slices become `List Int`, Go strings become
`List Char`, and the Go `for` loops become fuel-indexed structural
recursions; each top-level entry point supplies a fuel that provably
exceeds the number of iterations the Go loop performs.
-/

namespace LearnGo

/-- Inner skip in three_sum.go:
`for left+1 < right && nums[left] == nums[left+1] { left++ }`. -/
def skipDupLeft (nums : List Int) (right : Nat) : Nat → Nat → Nat
  | 0, left => left
  | fuel+1, left =>
    if left + 1 < right ∧ nums.getD left 0 = nums.getD (left+1) 0 then
      skipDupLeft nums right fuel (left+1)
    else left

/-- Inner skip in three_sum.go:
`for left < right-1 && nums[right] == nums[right-1] { right-- }`. -/
def skipDupRight (nums : List Int) (left : Nat) : Nat → Nat → Nat
  | 0, right => right
  | fuel+1, right =>
    if left < right - 1 ∧ nums.getD right 0 = nums.getD (right-1) 0 then
      skipDupRight nums left fuel (right-1)
    else right

/-- The `for left < right` scan of three_sum.go for a fixed anchor value `v`. -/
def twoPointer (nums : List Int) (v : Int) : Nat → Nat → Nat → List (List Int) → List (List Int)
  | 0, _, _, acc => acc
  | fuel+1, left, right, acc =>
    if left < right then
      let total := nums.getD left 0 + nums.getD right 0 + v
      if total = 0 then
        let left' := skipDupLeft nums right nums.length left + 1
        let right' := skipDupRight nums left' nums.length right - 1
        twoPointer nums v fuel left' right'
          (acc ++ [[v, nums.getD left 0, nums.getD right 0]])
      else if total < 0 then twoPointer nums v fuel (left+1) right acc
      else twoPointer nums v fuel left (right-1) acc
    else acc

/-- The anchor loop `for i := 0; i < n-2; i++` of three_sum.go, including the
`v > 0` break and the duplicate-anchor `continue`. -/
def threeSumLoop (nums : List Int) : Nat → Nat → List (List Int) → List (List Int)
  | 0, _, acc => acc
  | fuel+1, i, acc =>
    if i < nums.length - 2 then
      let v := nums.getD i 0
      if 0 < v then acc
      else if 0 < i ∧ nums.getD i 0 = nums.getD (i-1) 0 then
        threeSumLoop nums fuel (i+1) acc
      else
        threeSumLoop nums fuel (i+1)
          (twoPointer nums v nums.length (i+1) (nums.length - 1) acc)
    else acc

/-- `threeSum` of three_sum.go, returning both the final contents of the
caller's slice (`sort.Ints` sorts it in place) and the returned result. -/
def threeSumRun (nums : List Int) : List Int × List (List Int) :=
  let sorted := List.insertionSort (· ≤ ·) nums
  (sorted, threeSumLoop sorted sorted.length 0 [])

/-- The value returned by `threeSum` of three_sum.go. -/
def threeSum (nums : List Int) : List (List Int) := (threeSumRun nums).2

/-- First loop of removeNthFromEnd: advance `rightPtr` by `steps` nodes from
chain index `rightIdx`, where chain index 0 is the sentinel and chain index
`j+1` is the `j`-th list node; returns `none` when `rightPtr.next == nil` is
hit before the steps complete. -/
def advanceRight (chainLen : Nat) : Nat → Nat → Option Nat
  | rightIdx, 0 => some rightIdx
  | rightIdx, steps+1 =>
    if rightIdx + 1 = chainLen then none
    else advanceRight chainLen (rightIdx+1) steps

/-- Second loop of removeNthFromEnd: `for rightPtr.next != nil` advance both
pointers; returns the chain index of `leftPtr` when the loop stops. -/
def lockstepIdx (chainLen : Nat) : Nat → Nat → Nat → Nat
  | 0, leftIdx, _ => leftIdx
  | fuel+1, leftIdx, rightIdx =>
    if rightIdx + 1 = chainLen then leftIdx
    else lockstepIdx chainLen fuel (leftIdx+1) (rightIdx+1)

/-- `removeNthFromEnd` of remove_nth_node_from_the_end_of_list.go.  The chain
reachable from the sentinel has length `head.length + 1`; the unlink
`trail.next = trail.next.next` removes the list node at head index equal to
the final chain index of `leftPtr`, which is what `List.eraseIdx` does. -/
def removeNthFromEnd (head : List Int) (n : Int) : List Int :=
  if head = [] ∨ n ≤ 0 then head
  else
    match advanceRight (head.length + 1) 0 n.toNat with
    | none => head
    | some rightIdx =>
      head.eraseIdx (lockstepIdx (head.length + 1) (head.length + 1) 0 rightIdx)

/-- The `for left < right` loop of is_palindromic.go. -/
def isPalindromeLoop (s : List Char) : Nat → Nat → Nat → Bool
  | 0, _, _ => true
  | fuel+1, left, right =>
    if left < right then
      if s.getD left 'a' ≠ s.getD right 'a' then false
      else isPalindromeLoop s fuel (left+1) (right-1)
    else true

/-- `isPalindrome` of is_palindromic.go: `left := 0`, `right := len(s)-1`. -/
def isPalindrome (s : List Char) : Bool :=
  isPalindromeLoop s s.length 0 (s.length - 1)

/-! ### Generic list-index helpers -/

theorem getD_eq_elem (l : List α) (d : α) {i : Nat} (h : i < l.length) :
    l.getD i d = l[i] := by
  simp [List.getD_eq_getElem?_getD, List.getElem?_eq_getElem h]

theorem sorted_getD_mono (nums : List Int) (hs : List.Sorted (· ≤ ·) nums)
    {i j : Nat} (hij : i ≤ j) (hj : j < nums.length) :
    nums.getD i 0 ≤ nums.getD j 0 := by
  have hi : i < nums.length := lt_of_le_of_lt hij hj
  rw [getD_eq_elem _ _ hi, getD_eq_elem _ _ hj]
  rcases eq_or_lt_of_le hij with rfl | hlt
  · exact le_refl _
  · have := List.pairwise_iff_get.mp hs ⟨i, hi⟩ ⟨j, hj⟩ (by simpa using hlt)
    simpa using this

/-! ### Linked-list traversal lemmas -/

theorem advanceRight_some (chainLen : Nat) :
    ∀ (steps rightIdx : Nat), rightIdx + steps < chainLen →
      advanceRight chainLen rightIdx steps = some (rightIdx + steps) := by
  intro steps
  induction steps with
  | zero => intro r _; simp [advanceRight]
  | succ steps ih =>
    intro r h
    rw [advanceRight, if_neg (by omega)]
    rw [ih (r+1) (by omega)]
    congr 1
    omega

theorem advanceRight_none (chainLen : Nat) :
    ∀ (steps rightIdx : Nat), rightIdx < chainLen → chainLen ≤ rightIdx + steps →
      advanceRight chainLen rightIdx steps = none := by
  intro steps
  induction steps with
  | zero => intro r h1 h2; omega
  | succ steps ih =>
    intro r h1 h2
    rw [advanceRight]
    by_cases hc : r + 1 = chainLen
    · rw [if_pos hc]
    · rw [if_neg hc]
      exact ih (r+1) (by omega) (by omega)

theorem lockstepIdx_eq (chainLen : Nat) :
    ∀ (fuel leftIdx rightIdx : Nat), rightIdx < chainLen →
      chainLen - 1 - rightIdx < fuel →
      lockstepIdx chainLen fuel leftIdx rightIdx = leftIdx + (chainLen - 1 - rightIdx) := by
  intro fuel
  induction fuel with
  | zero => intro l r _ hf; omega
  | succ fuel ih =>
    intro l r hr hf
    rw [lockstepIdx]
    by_cases hc : r + 1 = chainLen
    · rw [if_pos hc]; omega
    · rw [if_neg hc, ih (l+1) (r+1) (by omega) (by omega)]
      omega

/-- Valid case of removeNthFromEnd: with `1 ≤ n ≤ length`, the node removed
is the one at head index `length - n`. -/
theorem removeNthFromEnd_eq_eraseIdx (head : List Int) (n : Int)
    (h1 : 1 ≤ n) (h2 : n.toNat ≤ head.length) :
    removeNthFromEnd head n = head.eraseIdx (head.length - n.toNat) := by
  have hlen : 1 ≤ head.length := by omega
  have hne : ¬(head = [] ∨ n ≤ 0) := by
    push_neg
    exact ⟨by intro hh; rw [hh] at hlen; simp at hlen, by omega⟩
  rw [removeNthFromEnd, if_neg hne]
  have hadv : advanceRight (head.length + 1) 0 n.toNat = some (0 + n.toNat) :=
    advanceRight_some _ _ _ (by omega)
  rw [hadv]
  show head.eraseIdx (lockstepIdx (head.length + 1) (head.length + 1) 0 (0 + n.toNat)) =
    head.eraseIdx (head.length - n.toNat)
  have hlock : lockstepIdx (head.length + 1) (head.length + 1) 0 (0 + n.toNat) =
      0 + (head.length + 1 - 1 - (0 + n.toNat)) :=
    lockstepIdx_eq _ _ _ _ (by omega) (by omega)
  rw [hlock]
  congr 1
  omega

/-- Degenerate cases of removeNthFromEnd: empty head, `n ≤ 0`, or `n` past
the end give back the original list. -/
theorem removeNthFromEnd_eq_self (head : List Int) (n : Int)
    (h : head = [] ∨ n ≤ 0 ∨ (head.length : Int) < n) :
    removeNthFromEnd head n = head := by
  by_cases h0 : head = [] ∨ n ≤ 0
  · rw [removeNthFromEnd, if_pos h0]
  · push_neg at h0
    have hlt : (head.length : Int) < n := by
      rcases h with hh | hh | hh
      · exact absurd hh h0.1
      · exact absurd hh (by omega)
      · exact hh
    rw [removeNthFromEnd, if_neg (by push_neg; exact h0)]
    rw [advanceRight_none _ _ _ (by omega) (by omega)]

/-! ### Palindrome lemmas -/

theorem isPalindromeLoop_iff (s : List Char) :
    ∀ (fuel left right : Nat), right < s.length → right - left ≤ fuel →
      (isPalindromeLoop s fuel left right = true ↔
        ∀ i, left ≤ i → i ≤ right → s.getD i 'a' = s.getD (left + right - i) 'a') := by
  intro fuel
  induction fuel with
  | zero =>
    intro l r _ hf
    have hall : ∀ i, l ≤ i → i ≤ r → s.getD i 'a' = s.getD (l + r - i) 'a' := by
      intro i h1 h2
      rw [show l + r - i = i from by omega]
    simp only [isPalindromeLoop]
    exact iff_of_true (by simp) hall
  | succ fuel ih =>
    intro l r hr hf
    rw [isPalindromeLoop]
    by_cases hlr : l < r
    · rw [if_pos hlr]
      by_cases hne : s.getD l 'a' ≠ s.getD r 'a'
      · rw [if_pos hne]
        constructor
        · intro hfalse; exact absurd hfalse (by simp)
        · intro hall
          exfalso
          have hl := hall l (le_refl _) (by omega)
          rw [show l + r - l = r from by omega] at hl
          exact hne hl
      · rw [if_neg hne]
        push_neg at hne
        rw [ih (l+1) (r-1) (by omega) (by omega)]
        constructor
        · intro hall i h1 h2
          by_cases hi1 : i = l
          · subst hi1
            rw [show i + r - i = r from by omega]
            exact hne
          · by_cases hi2 : i = r
            · subst hi2
              rw [show l + i - i = l from by omega]
              exact hne.symm
            · have hil := hall i (by omega) (by omega)
              rw [show (l+1) + (r-1) - i = l + r - i from by omega] at hil
              exact hil
        · intro hall i h1 h2
          have hil := hall i (by omega) (by omega)
          rw [show (l+1) + (r-1) - i = l + r - i from by omega]
          exact hil
    · rw [if_neg hlr]
      have hall : ∀ i, l ≤ i → i ≤ r → s.getD i 'a' = s.getD (l + r - i) 'a' := by
        intro i h1 h2
        rw [show l + r - i = i from by omega]
      exact iff_of_true (by simp) hall

/-- The two-pointer scan decides exactly reversal-invariance. -/
theorem isPalindrome_iff_eq_reverse (s : List Char) :
    isPalindrome s = true ↔ s = s.reverse := by
  rcases Nat.eq_zero_or_pos s.length with hz | hpos
  · have hnil : s = [] := List.length_eq_zero.mp hz
    subst hnil
    simp [isPalindrome, isPalindromeLoop]
  · rw [isPalindrome, isPalindromeLoop_iff s s.length 0 (s.length - 1) (by omega) (by omega)]
    constructor
    · intro hall
      apply List.ext_getElem (by simp)
      intro i hi hi2
      rw [List.getElem_reverse]
      have hil := hall i (Nat.zero_le _) (by omega)
      rw [show 0 + (s.length - 1) - i = s.length - 1 - i from by omega] at hil
      rw [getD_eq_elem _ _ hi, getD_eq_elem _ _ (by omega : s.length - 1 - i < s.length)] at hil
      exact hil
    · intro hrev i _ h2
      have hi : i < s.length := by omega
      have hj : s.length - 1 - i < s.length := by omega
      rw [getD_eq_elem _ _ hi, show 0 + (s.length - 1) - i = s.length - 1 - i from by omega,
        getD_eq_elem _ _ hj]
      have h? : s[i]? = s.reverse[i]? := by rw [← hrev]
      rw [List.getElem?_reverse hi] at h?
      rw [List.getElem?_eq_getElem hi, List.getElem?_eq_getElem hj] at h?
      exact Option.some.inj h?

/-! ### threeSum: skip-loop specifications -/

theorem le_skipDupLeft (nums : List Int) (right : Nat) :
    ∀ (fuel left : Nat), left ≤ skipDupLeft nums right fuel left := by
  intro fuel
  induction fuel with
  | zero => intro l; simp [skipDupLeft]
  | succ fuel ih =>
    intro l
    rw [skipDupLeft]
    by_cases hc : l + 1 < right ∧ nums.getD l 0 = nums.getD (l+1) 0
    · rw [if_pos hc]
      exact le_trans (by omega) (ih (l+1))
    · rw [if_neg hc]

theorem skipDupRight_le (nums : List Int) (left : Nat) :
    ∀ (fuel right : Nat), skipDupRight nums left fuel right ≤ right := by
  intro fuel
  induction fuel with
  | zero => intro r; simp [skipDupRight]
  | succ fuel ih =>
    intro r
    rw [skipDupRight]
    by_cases hc : left < r - 1 ∧ nums.getD r 0 = nums.getD (r-1) 0
    · rw [if_pos hc]
      exact le_trans (ih (r-1)) (by omega)
    · rw [if_neg hc]

/-- With enough fuel, `skipDupLeft` keeps the scanned value and stops at a
genuine boundary: either the window is exhausted or the next value differs. -/
theorem skipDupLeft_spec (nums : List Int) (right : Nat) :
    ∀ (fuel left : Nat), right - left ≤ fuel →
      nums.getD (skipDupLeft nums right fuel left) 0 = nums.getD left 0 ∧
      ¬(skipDupLeft nums right fuel left + 1 < right ∧
        nums.getD (skipDupLeft nums right fuel left) 0 =
          nums.getD (skipDupLeft nums right fuel left + 1) 0) := by
  intro fuel
  induction fuel with
  | zero =>
    intro l hf
    simp only [skipDupLeft]
    exact ⟨trivial, fun hx => absurd hx.1 (by omega)⟩
  | succ fuel ih =>
    intro l hf
    rw [skipDupLeft]
    by_cases hc : l + 1 < right ∧ nums.getD l 0 = nums.getD (l+1) 0
    · rw [if_pos hc]
      have hrec := ih (l+1) (by omega)
      exact ⟨hrec.1.trans hc.2.symm, hrec.2⟩
    · rw [if_neg hc]
      exact ⟨rfl, hc⟩

/-! ### threeSum: two-pointer scan lemmas -/

theorem getD_triplet_zero (a b c : Int) : ([a, b, c] : List Int).getD 0 0 = a := rfl

theorem getD_triplet_one (a b c : Int) : ([a, b, c] : List Int).getD 1 0 = b := rfl

theorem twoPointer_stop (nums : List Int) (v : Int) (fuel left right : Nat)
    (acc : List (List Int)) (h : ¬ left < right) :
    twoPointer nums v fuel left right acc = acc := by
  cases fuel with
  | zero => rfl
  | succ fuel => simp only [twoPointer]; rw [if_neg h]

theorem twoPointer_append (nums : List Int) (v : Int) :
    ∀ (fuel left right : Nat) (acc : List (List Int)),
      twoPointer nums v fuel left right acc =
        acc ++ twoPointer nums v fuel left right [] := by
  intro fuel
  induction fuel with
  | zero => intro l r acc; simp [twoPointer]
  | succ fuel ih =>
    intro l r acc
    simp only [twoPointer]
    by_cases hlr : l < r
    · rw [if_pos hlr, if_pos hlr]
      by_cases h0 : nums.getD l 0 + nums.getD r 0 + v = 0
      · rw [if_pos h0, if_pos h0]
        rw [ih _ _ (acc ++ [[v, nums.getD l 0, nums.getD r 0]]),
          ih _ _ ([] ++ [[v, nums.getD l 0, nums.getD r 0]])]
        simp
      · rw [if_neg h0, if_neg h0]
        by_cases hneg : nums.getD l 0 + nums.getD r 0 + v < 0
        · rw [if_pos hneg, if_pos hneg]
          exact ih _ _ acc
        · rw [if_neg hneg, if_neg hneg]
          exact ih _ _ acc
    · rw [if_neg hlr, if_neg hlr]
      simp

/-- Every triplet produced by the two-pointer scan (beyond the accumulator)
comes from a pair of indices inside the window and sums with `v` to zero. -/
theorem twoPointer_mem (nums : List Int) (v : Int) :
    ∀ (fuel left right : Nat) (acc : List (List Int)) (t : List Int),
      t ∈ twoPointer nums v fuel left right acc →
      t ∈ acc ∨ ∃ li ri, left ≤ li ∧ li < ri ∧ ri ≤ right ∧
        t = [v, nums.getD li 0, nums.getD ri 0] ∧
        nums.getD li 0 + nums.getD ri 0 + v = 0 := by
  intro fuel
  induction fuel with
  | zero => intro l r acc t ht; exact Or.inl ht
  | succ fuel ih =>
    intro l r acc t ht
    simp only [twoPointer] at ht
    by_cases hlr : l < r
    · rw [if_pos hlr] at ht
      by_cases h0 : nums.getD l 0 + nums.getD r 0 + v = 0
      · rw [if_pos h0] at ht
        rcases ih _ _ _ _ ht with hacc | ⟨li, ri, hli, hlri, hri, hteq, hsum⟩
        · rcases List.mem_append.mp hacc with hmem | hmem
          · exact Or.inl hmem
          · refine Or.inr ⟨l, r, le_refl _, hlr, le_refl _, ?_, h0⟩
            simpa using hmem
        · refine Or.inr ⟨li, ri, ?_, hlri, ?_, hteq, hsum⟩
          · have := le_skipDupLeft nums r nums.length l
            omega
          · have := skipDupRight_le nums
              (skipDupLeft nums r nums.length l + 1) nums.length r
            omega
      · rw [if_neg h0] at ht
        by_cases hneg : nums.getD l 0 + nums.getD r 0 + v < 0
        · rw [if_pos hneg] at ht
          rcases ih _ _ _ _ ht with hacc | ⟨li, ri, hli, hlri, hri, hteq, hsum⟩
          · exact Or.inl hacc
          · exact Or.inr ⟨li, ri, by omega, hlri, hri, hteq, hsum⟩
        · rw [if_neg hneg] at ht
          rcases ih _ _ _ _ ht with hacc | ⟨li, ri, hli, hlri, hri, hteq, hsum⟩
          · exact Or.inl hacc
          · exact Or.inr ⟨li, ri, hli, hlri, by omega, hteq, hsum⟩
    · rw [if_neg hlr] at ht
      exact Or.inl ht

/-- One emitting step of the scan: the freshly emitted triplet follows the
accumulator at the front of the final result. -/
theorem twoPointer_emit (nums : List Int) (v : Int) (fuel left right : Nat)
    (acc : List (List Int)) (hlr : left < right)
    (hsum : nums.getD left 0 + nums.getD right 0 + v = 0) :
    ∃ rest, twoPointer nums v (fuel+1) left right acc =
      acc ++ [[v, nums.getD left 0, nums.getD right 0]] ++ rest := by
  simp only [twoPointer]
  rw [if_pos hlr, if_pos hsum]
  rw [twoPointer_append]
  exact ⟨_, rfl⟩

/-- The second components of triplets emitted by one scan strictly increase:
this is the duplicate-pair suppression of three_sum.go. -/
theorem twoPointer_pairwise (nums : List Int) (v : Int)
    (hs : List.Sorted (· ≤ ·) nums) :
    ∀ (fuel left right : Nat), right < nums.length →
      (twoPointer nums v fuel left right []).Pairwise
        (fun a b => a.getD 1 0 < b.getD 1 0) := by
  intro fuel
  induction fuel with
  | zero => intro l r _; simp [twoPointer]
  | succ fuel ih =>
    intro l r hr
    by_cases hlr : l < r
    · by_cases h0 : nums.getD l 0 + nums.getD r 0 + v = 0
      · have heq : twoPointer nums v (fuel+1) l r [] =
            [v, nums.getD l 0, nums.getD r 0] ::
              twoPointer nums v fuel
                (skipDupLeft nums r nums.length l + 1)
                (skipDupRight nums (skipDupLeft nums r nums.length l + 1)
                  nums.length r - 1) [] := by
          simp only [twoPointer]
          rw [if_pos hlr, if_pos h0]
          rw [twoPointer_append]
          simp
        rw [heq, List.pairwise_cons]
        constructor
        · intro t ht
          have hspec := skipDupLeft_spec nums r nums.length l (by omega)
          have hle := le_skipDupLeft nums r nums.length l
          set e := skipDupLeft nums r nums.length l with he
          by_cases hcase : e + 1 < r
          · have hne : nums.getD e 0 ≠ nums.getD (e+1) 0 := by
              intro hcontra
              exact hspec.2 ⟨hcase, hcontra⟩
            rcases twoPointer_mem nums v fuel _ _ _ _ ht with habs |
              ⟨li, ri, hli, hlri, hri, hteq, _⟩
            · simp at habs
            · have hrle := skipDupRight_le nums (e+1) nums.length r
              have h1 : nums.getD e 0 ≤ nums.getD (e+1) 0 :=
                sorted_getD_mono nums hs (by omega) (by omega)
              have h2 : nums.getD (e+1) 0 ≤ nums.getD li 0 :=
                sorted_getD_mono nums hs (by omega) (by omega)
              have h3 : nums.getD l 0 = nums.getD e 0 := hspec.1.symm
              rw [hteq]
              simp only [getD_triplet_one]
              omega
          · have hstop : twoPointer nums v fuel (e + 1)
                (skipDupRight nums (e+1) nums.length r - 1) [] = [] := by
              apply twoPointer_stop
              have := skipDupRight_le nums (e+1) nums.length r
              omega
            rw [hstop] at ht
            simp at ht
        · apply ih
          have := skipDupRight_le nums
            (skipDupLeft nums r nums.length l + 1) nums.length r
          omega
      · by_cases hneg : nums.getD l 0 + nums.getD r 0 + v < 0
        · have heq : twoPointer nums v (fuel+1) l r [] =
              twoPointer nums v fuel (l+1) r [] := by
            simp only [twoPointer]
            rw [if_pos hlr, if_neg h0, if_pos hneg]
          rw [heq]
          exact ih _ _ hr
        · have heq : twoPointer nums v (fuel+1) l r [] =
              twoPointer nums v fuel l (r-1) [] := by
            simp only [twoPointer]
            rw [if_pos hlr, if_neg h0, if_neg hneg]
          rw [heq]
          exact ih _ _ (by omega)
    · rw [twoPointer_stop nums v _ _ _ _ hlr]
      exact List.Pairwise.nil

/-! ### threeSum: anchor-loop lemmas -/

/-- Strict order on triplets by first, then second component; emitted
triplets are strictly increasing in this order. -/
def tripletLt (a b : List Int) : Prop :=
  a.getD 0 0 < b.getD 0 0 ∨ (a.getD 0 0 = b.getD 0 0 ∧ a.getD 1 0 < b.getD 1 0)

theorem threeSumLoop_append (nums : List Int) :
    ∀ (fuel i : Nat) (acc : List (List Int)),
      threeSumLoop nums fuel i acc = acc ++ threeSumLoop nums fuel i [] := by
  intro fuel
  induction fuel with
  | zero => intro i acc; simp [threeSumLoop]
  | succ fuel ih =>
    intro i acc
    simp only [threeSumLoop]
    by_cases h1 : i < nums.length - 2
    · rw [if_pos h1, if_pos h1]
      by_cases h2 : 0 < nums.getD i 0
      · rw [if_pos h2, if_pos h2]; simp
      · rw [if_neg h2, if_neg h2]
        by_cases h3 : 0 < i ∧ nums.getD i 0 = nums.getD (i-1) 0
        · rw [if_pos h3, if_pos h3]; exact ih _ acc
        · rw [if_neg h3, if_neg h3]
          rw [ih _ (twoPointer nums (nums.getD i 0) nums.length (i+1) (nums.length - 1) acc),
            ih _ (twoPointer nums (nums.getD i 0) nums.length (i+1) (nums.length - 1) [])]
          rw [twoPointer_append nums (nums.getD i 0) nums.length (i+1) (nums.length - 1) acc]
          simp
    · rw [if_neg h1, if_neg h1]; simp

/-- Every triplet produced by the anchor loop (beyond the accumulator) comes
from an anchor `ai ≥ i` that passed the duplicate-anchor test, paired with
two later indices, and sums to zero. -/
theorem threeSumLoop_mem (nums : List Int) :
    ∀ (fuel i : Nat) (acc : List (List Int)) (t : List Int),
      t ∈ threeSumLoop nums fuel i acc →
      t ∈ acc ∨ ∃ ai li ri, i ≤ ai ∧ ai + 2 < nums.length ∧ ai < li ∧ li < ri ∧
        ri < nums.length ∧ (ai = 0 ∨ nums.getD ai 0 ≠ nums.getD (ai-1) 0) ∧
        t = [nums.getD ai 0, nums.getD li 0, nums.getD ri 0] ∧
        nums.getD li 0 + nums.getD ri 0 + nums.getD ai 0 = 0 := by
  intro fuel
  induction fuel with
  | zero => intro i acc t ht; exact Or.inl ht
  | succ fuel ih =>
    intro i acc t ht
    simp only [threeSumLoop] at ht
    by_cases h1 : i < nums.length - 2
    · rw [if_pos h1] at ht
      by_cases h2 : 0 < nums.getD i 0
      · rw [if_pos h2] at ht; exact Or.inl ht
      · rw [if_neg h2] at ht
        by_cases h3 : 0 < i ∧ nums.getD i 0 = nums.getD (i-1) 0
        · rw [if_pos h3] at ht
          rcases ih _ _ _ ht with hacc | ⟨ai, li, ri, hai, h5, h6, h7, h8, h9, h10, h11⟩
          · exact Or.inl hacc
          · exact Or.inr ⟨ai, li, ri, by omega, h5, h6, h7, h8, h9, h10, h11⟩
        · rw [if_neg h3] at ht
          rcases ih _ _ _ ht with hacc | ⟨ai, li, ri, hai, h5, h6, h7, h8, h9, h10, h11⟩
          · rcases twoPointer_mem nums (nums.getD i 0) nums.length (i+1)
              (nums.length - 1) acc t hacc with
              hacc2 | ⟨li, ri, hli, hlri, hri, hteq, hsum⟩
            · exact Or.inl hacc2
            · refine Or.inr ⟨i, li, ri, le_refl _, by omega, by omega, hlri,
                by omega, ?_, hteq, hsum⟩
              rcases Nat.eq_zero_or_pos i with hz | hpos
              · exact Or.inl hz
              · exact Or.inr (fun hcontra => h3 ⟨hpos, hcontra⟩)
          · exact Or.inr ⟨ai, li, ri, by omega, h5, h6, h7, h8, h9, h10, h11⟩
    · rw [if_neg h1] at ht; exact Or.inl ht

/-- What the duplicate-anchor suppression buys: the whole output of the
anchor loop is strictly increasing in `tripletLt`. -/
theorem threeSumLoop_pairwise (nums : List Int) (hs : List.Sorted (· ≤ ·) nums) :
    ∀ (fuel i : Nat), (threeSumLoop nums fuel i []).Pairwise tripletLt := by
  intro fuel
  induction fuel with
  | zero => intro i; simp [threeSumLoop]
  | succ fuel ih =>
    intro i
    by_cases h1 : i < nums.length - 2
    · by_cases h2 : 0 < nums.getD i 0
      · have heq : threeSumLoop nums (fuel+1) i [] = [] := by
          simp only [threeSumLoop]; rw [if_pos h1, if_pos h2]
        rw [heq]; exact List.Pairwise.nil
      · by_cases h3 : 0 < i ∧ nums.getD i 0 = nums.getD (i-1) 0
        · have heq : threeSumLoop nums (fuel+1) i [] = threeSumLoop nums fuel (i+1) [] := by
            simp only [threeSumLoop]; rw [if_pos h1, if_neg h2, if_pos h3]
          rw [heq]; exact ih _
        · have heq : threeSumLoop nums (fuel+1) i [] =
              twoPointer nums (nums.getD i 0) nums.length (i+1) (nums.length - 1) [] ++
                threeSumLoop nums fuel (i+1) [] := by
            simp only [threeSumLoop]
            rw [if_pos h1, if_neg h2, if_neg h3, threeSumLoop_append]
          rw [heq, List.pairwise_append]
          refine ⟨?_, ih _, ?_⟩
          · have hpw := twoPointer_pairwise nums (nums.getD i 0) hs nums.length (i+1)
              (nums.length - 1) (by omega)
            refine List.Pairwise.imp_of_mem ?_ hpw
            intro a b ha hb hab
            rcases twoPointer_mem nums _ _ _ _ _ _ ha with habs | ⟨li, ri, _, _, _, haeq, _⟩
            · simp at habs
            rcases twoPointer_mem nums _ _ _ _ _ _ hb with habs | ⟨lj, rj, _, _, _, hbeq, _⟩
            · simp at habs
            exact Or.inr ⟨by rw [haeq, hbeq, getD_triplet_zero, getD_triplet_zero], hab⟩
          · intro a ha b hb
            rcases twoPointer_mem nums _ _ _ _ _ _ ha with habs | ⟨li, ri, _, _, _, haeq, _⟩
            · simp at habs
            rcases threeSumLoop_mem nums fuel (i+1) [] b hb with habs |
              ⟨aj, lj, rj, haj, hbound, _, _, _, hanch, hbeq, _⟩
            · simp at habs
            left
            rw [haeq, hbeq, getD_triplet_zero, getD_triplet_zero]
            have hane : nums.getD aj 0 ≠ nums.getD (aj-1) 0 := by
              rcases hanch with hz | hne
              · exact absurd hz (by omega)
              · exact hne
            have hmono1 : nums.getD i 0 ≤ nums.getD (aj-1) 0 :=
              sorted_getD_mono nums hs (by omega) (by omega)
            have hmono2 : nums.getD (aj-1) 0 ≤ nums.getD aj 0 :=
              sorted_getD_mono nums hs (by omega) (by omega)
            omega
    · have heq : threeSumLoop nums (fuel+1) i [] = [] := by
        simp only [threeSumLoop]; rw [if_neg h1]
      rw [heq]; exact List.Pairwise.nil

/-- One emitting step of the anchor loop. -/
theorem threeSumLoop_emit (nums : List Int) (fuel i : Nat) (acc : List (List Int))
    (h1 : i < nums.length - 2) (h2 : ¬ 0 < nums.getD i 0)
    (h3 : ¬(0 < i ∧ nums.getD i 0 = nums.getD (i-1) 0)) :
    ∃ rest, threeSumLoop nums (fuel+1) i acc =
      twoPointer nums (nums.getD i 0) nums.length (i+1) (nums.length - 1) acc ++ rest := by
  simp only [threeSumLoop]
  rw [if_pos h1, if_neg h2, if_neg h3, threeSumLoop_append]
  exact ⟨_, rfl⟩

/-! ### threeSum: top-level helper lemmas -/

theorem threeSum_eq_loop (nums : List Int) :
    threeSum nums = threeSumLoop (List.insertionSort (· ≤ ·) nums)
      (List.insertionSort (· ≤ ·) nums).length 0 [] := rfl

/-- Every member of the result reads three increasing positions of the
sorted array and sums to zero. -/
theorem mem_threeSum (nums : List Int) (t : List Int) (ht : t ∈ threeSum nums) :
    ∃ ai li ri, ai < li ∧ li < ri ∧ ri < (List.insertionSort (· ≤ ·) nums).length ∧
      t = [(List.insertionSort (· ≤ ·) nums).getD ai 0,
        (List.insertionSort (· ≤ ·) nums).getD li 0,
        (List.insertionSort (· ≤ ·) nums).getD ri 0] ∧
      (List.insertionSort (· ≤ ·) nums).getD li 0 +
        (List.insertionSort (· ≤ ·) nums).getD ri 0 +
        (List.insertionSort (· ≤ ·) nums).getD ai 0 = 0 := by
  rw [threeSum_eq_loop] at ht
  rcases threeSumLoop_mem _ _ _ _ _ ht with habs | ⟨ai, li, ri, _, _, h6, h7, h8, _, h10, h11⟩
  · simp at habs
  · exact ⟨ai, li, ri, h6, h7, h8, h10, h11⟩

theorem sorted_triplet (x y z : Int) (h1 : x ≤ y) (h2 : y ≤ z) :
    List.Sorted (· ≤ ·) [x, y, z] := by
  refine List.Pairwise.cons ?_ (List.Pairwise.cons ?_ (List.Pairwise.cons ?_ List.Pairwise.nil))
  · intro b hb
    rcases List.mem_cons.mp hb with rfl | hb2
    · exact h1
    · have hbz : b = z := by simpa using hb2
      subst hbz
      exact le_trans h1 h2
  · intro b hb
    have hbz : b = z := by simpa using hb
    subst hbz
    exact h2
  · intro b hb
    exact absurd hb (List.not_mem_nil b)

/-- No two triplets of the result are value-permutations of each other. -/
theorem threeSum_pairwise_not_perm (nums : List Int) :
    (threeSum nums).Pairwise (fun a b => ¬ a.Perm b) := by
  have hs := List.sorted_insertionSort (· ≤ ·) nums
  have hpw := threeSumLoop_pairwise _ hs (List.insertionSort (· ≤ ·) nums).length 0
  rw [threeSum_eq_loop]
  refine List.Pairwise.imp_of_mem ?_ hpw
  intro a b ha hb hab hperm
  rw [← threeSum_eq_loop] at ha hb
  rcases mem_threeSum nums a ha with ⟨ai, li, ri, h1, h2, h3, haeq, _⟩
  rcases mem_threeSum nums b hb with ⟨aj, lj, rj, g1, g2, g3, hbeq, _⟩
  have hsa : List.Sorted (· ≤ ·) a := by
    rw [haeq]
    exact sorted_triplet _ _ _ (sorted_getD_mono _ hs (le_of_lt h1) (by omega))
      (sorted_getD_mono _ hs (le_of_lt h2) h3)
  have hsb : List.Sorted (· ≤ ·) b := by
    rw [hbeq]
    exact sorted_triplet _ _ _ (sorted_getD_mono _ hs (le_of_lt g1) (by omega))
      (sorted_getD_mono _ hs (le_of_lt g2) g3)
  have heqab : a = b := List.eq_of_perm_of_sorted hperm hsa hsb
  rw [heqab] at hab
  simp only [tripletLt] at hab
  rcases hab with hlt | ⟨_, hlt⟩ <;> exact absurd hlt (lt_irrefl _)

/-! ### Sublist extraction from three positions -/

theorem drop_elem_eq (l : List α) (m j : Nat) (hmj : m ≤ j) (hj : j < l.length)
    (hd : j - m < (l.drop m).length) : (l.drop m)[j - m] = l[j] := by
  have h? : (l.drop m)[j - m]? = l[j]? := by
    rw [List.getElem?_drop, show m + (j - m) = j from by omega]
  rw [List.getElem?_eq_getElem hd, List.getElem?_eq_getElem hj] at h?
  exact Option.some.inj h?

theorem getD_pair_sublist (l : List Int) {i j : Nat} (hij : i < j) (hj : j < l.length) :
    List.Sublist [l.getD i 0, l.getD j 0] l := by
  have hi : i < l.length := lt_trans hij hj
  have hd : j - (i+1) < (l.drop (i+1)).length := by rw [List.length_drop]; omega
  have hsingle : List.Sublist [l.getD j 0] (l.drop (i+1)) := by
    rw [getD_eq_elem _ _ hj, ← drop_elem_eq l (i+1) j (by omega) hj hd]
    exact List.singleton_sublist.mpr (List.getElem_mem hd)
  have hcons : List.Sublist (l.getD i 0 :: [l.getD j 0]) (l.getD i 0 :: l.drop (i+1)) :=
    List.Sublist.cons₂ _ hsingle
  have hdropeq : l.getD i 0 :: l.drop (i+1) = l.drop i := by
    rw [getD_eq_elem _ _ hi]
    exact (List.drop_eq_getElem_cons hi).symm
  rw [hdropeq] at hcons
  exact hcons.trans (List.drop_sublist _ _)

theorem getD_triple_sublist (l : List Int) {i j k : Nat} (hij : i < j) (hjk : j < k)
    (hk : k < l.length) :
    List.Sublist [l.getD i 0, l.getD j 0, l.getD k 0] l := by
  have hj : j < l.length := lt_trans hjk hk
  have hi : i < l.length := lt_trans hij hj
  have hdj : j - (i+1) < (l.drop (i+1)).length := by rw [List.length_drop]; omega
  have hdk : k - (i+1) < (l.drop (i+1)).length := by rw [List.length_drop]; omega
  have hpair : List.Sublist [l.getD j 0, l.getD k 0] (l.drop (i+1)) := by
    have hp := getD_pair_sublist (l.drop (i+1))
      (show j - (i+1) < k - (i+1) from by omega) hdk
    rw [getD_eq_elem _ _ hdj, getD_eq_elem _ _ hdk,
      drop_elem_eq l (i+1) j (by omega) hj hdj,
      drop_elem_eq l (i+1) k (by omega) hk hdk,
      ← getD_eq_elem _ _ hj, ← getD_eq_elem _ _ hk] at hp
    exact hp
  have hcons := List.Sublist.cons₂ (l.getD i 0) hpair
  have hdropeq : l.getD i 0 :: l.drop (i+1) = l.drop i := by
    rw [getD_eq_elem _ _ hi]
    exact (List.drop_eq_getElem_cons hi).symm
  rw [hdropeq] at hcons
  exact hcons.trans (List.drop_sublist _ _)

/-- Every returned triplet is (as a list of values) a sub-permutation of the
original input. -/
theorem threeSum_triple_subperm (nums : List Int) (t : List Int)
    (ht : t ∈ threeSum nums) :
    ∃ a b c : Int, t = [a, b, c] ∧ List.Subperm [a, b, c] nums ∧ a + b + c = 0 := by
  rcases mem_threeSum nums t ht with ⟨ai, li, ri, h1, h2, h3, hteq, hsum⟩
  refine ⟨_, _, _, hteq, ?_, by omega⟩
  have hsub := getD_triple_sublist _ h1 h2 h3
  have hperm : (List.insertionSort (· ≤ ·) nums).Perm nums := List.perm_insertionSort _ _
  exact hsub.subperm.trans hperm.subperm

/-! ### threeSum on an all-zero input -/

theorem replicate_getD (k i : Nat) : (List.replicate k (0:Int)).getD i 0 = 0 := by
  induction k generalizing i with
  | zero => simp [List.getD_eq_getElem?_getD]
  | succ k ih =>
    cases i with
    | zero => simp [List.replicate_succ]
    | succ i => simp [List.replicate_succ, List.getD_cons_succ, ih]

theorem insertionSort_replicate (k : Nat) :
    List.insertionSort (· ≤ ·) (List.replicate k (0:Int)) = List.replicate k 0 := by
  apply List.eq_of_perm_of_sorted (List.perm_insertionSort _ _)
    (List.sorted_insertionSort _ _)
  exact List.pairwise_replicate.mpr (Or.inr (le_refl 0))

theorem skipDupRight_stop (nums : List Int) (left : Nat) (fuel right : Nat)
    (h : ¬ left < right - 1) :
    skipDupRight nums left fuel right = right := by
  cases fuel with
  | zero => rfl
  | succ fuel => rw [skipDupRight, if_neg (fun hx => h hx.1)]

theorem threeSum_replicate (k : Nat) (hk : 3 ≤ k) :
    threeSum (List.replicate k 0) = [[0, 0, 0]] := by
  have hlen : (List.replicate k (0:Int)).length = k := by simp
  have hmem : ∀ t ∈ threeSum (List.replicate k 0), t = [0, 0, 0] := by
    intro t ht
    rcases mem_threeSum _ t ht with ⟨ai, li, ri, _, _, _, hteq, _⟩
    rw [insertionSort_replicate] at hteq
    rw [hteq, replicate_getD, replicate_getD, replicate_getD]
  have hne : threeSum (List.replicate k 0) ≠ [] := by
    have hloop : threeSum (List.replicate k 0) =
        threeSumLoop (List.replicate k 0) k 0 [] := by
      rw [threeSum_eq_loop, insertionSort_replicate, hlen]
    rw [hloop]
    obtain ⟨m, hm⟩ : ∃ m, k = m + 1 := ⟨k - 1, by omega⟩
    subst hm
    obtain ⟨rest, hrest⟩ := threeSumLoop_emit (List.replicate (m+1) 0) m 0 []
      (by rw [hlen]; omega)
      (by rw [replicate_getD]; omega)
      (by intro hx; omega)
    rw [hrest]
    simp only [List.length_replicate, replicate_getD] at hrest ⊢
    obtain ⟨rest2, hrest2⟩ := twoPointer_emit (List.replicate (m+1) 0) 0 m 1 (m+1-1) []
      (by omega)
      (by rw [replicate_getD, replicate_getD]; omega)
    rw [show m + 1 = m + 1 from rfl] at hrest2
    rw [hrest2]
    simp
  cases hc : threeSum (List.replicate k 0) with
  | nil => exact absurd hc hne
  | cons x xs =>
    have hx : x = [0, 0, 0] := hmem x (by rw [hc]; exact List.mem_cons_self _ _)
    cases hxs : xs with
    | nil => rw [hx]
    | cons y ys =>
      exfalso
      have hy : y = [0, 0, 0] := hmem y
        (by rw [hc, hxs]; exact List.mem_cons_of_mem _ (List.mem_cons_self _ _))
      have hpw := threeSum_pairwise_not_perm (List.replicate k 0)
      rw [hc, hxs] at hpw
      have hnp := (List.pairwise_cons.mp hpw).1 y (List.mem_cons_self _ _)
      rw [hx, hy] at hnp
      exact hnp (List.Perm.refl _)

/-! ### Claim theorems -/

/-- Claim C1: for every integer sequence input, every triplet in the sequence
returned by threeSum sums to exactly zero. -/
theorem threeSum_sums_zero (nums : List Int) (t : List Int)
    (ht : t ∈ threeSum nums) : t.sum = 0 := by
  rcases mem_threeSum nums t ht with ⟨ai, li, ri, _, _, _, hteq, hsum⟩
  rw [hteq]
  simp only [List.sum_cons, List.sum_nil]
  omega

theorem threeSum_sums_zero_witness :
    ([-1, -1, 2] : List Int) ∈ threeSum [-1, 0, 1, 2, -1, -4] ∧
    List.sum ([-1, -1, 2] : List Int) = 0 :=
  ⟨by decide, threeSum_sums_zero [-1, 0, 1, 2, -1, -4] [-1, -1, 2] (by decide)⟩

/-- Claim C2: the result of threeSum contains no two triplets that are
value-permutations of each other: no two emitted triplets have the same
multiset of values. -/
theorem threeSum_no_duplicate_triplets (nums : List Int) :
    (threeSum nums).Pairwise (fun a b => ¬ a.Perm b) :=
  threeSum_pairwise_not_perm nums

/-- Claim C3: for every list of length L and every n with 1 ≤ n ≤ L,
removeNthFromEnd removes exactly the n-th node counted from the tail
(head index L - n), preserving every other node's value and order
(`List.eraseIdx` is exactly that removal); in particular n = L removes the
head, a single-node list with n = 1 yields the empty list, and the spec's
examples hold. -/
theorem removeNthFromEnd_removes_nth :
    (∀ (head : List Int) (n : Int), 1 ≤ n → n.toNat ≤ head.length →
      removeNthFromEnd head n = head.eraseIdx (head.length - n.toNat)) ∧
    removeNthFromEnd [1, 2, 3, 4, 5] 2 = [1, 2, 3, 5] ∧
    removeNthFromEnd [1, 2, 3, 4, 5] 5 = [2, 3, 4, 5] ∧
    removeNthFromEnd [7] 1 = [] :=
  ⟨removeNthFromEnd_eq_eraseIdx, by decide, by decide, by decide⟩

theorem removeNthFromEnd_removes_nth_witness :
    (1 : Int) ≤ 2 ∧ (2 : Int).toNat ≤ [1, 2, 3, 4, 5].length ∧
    removeNthFromEnd [1, 2, 3, 4, 5] 2 =
      [1, 2, 3, 4, 5].eraseIdx ([1, 2, 3, 4, 5].length - (2 : Int).toNat) :=
  ⟨by decide, by decide,
    removeNthFromEnd_removes_nth.1 [1, 2, 3, 4, 5] 2 (by decide) (by decide)⟩

/-- Claim C4: if the head is absent, or n ≤ 0, or n exceeds the list's
length, removeNthFromEnd returns the original list unchanged, node for node:
a silent no-op, never a fault. -/
theorem removeNthFromEnd_noop (head : List Int) (n : Int)
    (h : head = [] ∨ n ≤ 0 ∨ (head.length : Int) < n) :
    removeNthFromEnd head n = head :=
  removeNthFromEnd_eq_self head n h

theorem removeNthFromEnd_noop_witness :
    (([1, 2] : List Int) = [] ∨ (5 : Int) ≤ 0 ∨ (([1, 2] : List Int).length : Int) < 5) ∧
    removeNthFromEnd [1, 2] 5 = [1, 2] :=
  ⟨by decide, removeNthFromEnd_noop [1, 2] 5 (by decide)⟩

/-- Claim C5: isPalindrome returns true exactly when the character sequence
equals its own reversal under raw element equality; the empty sequence
returns true, and the spec's examples hold. -/
theorem isPalindrome_spec :
    (∀ s : List Char, isPalindrome s = true ↔ s = s.reverse) ∧
    isPalindrome [] = true ∧
    isPalindrome ['r', 'a', 'c', 'e', 'c', 'a', 'r'] = true ∧
    isPalindrome ['a', 'b', 'a', 'b'] = false :=
  ⟨isPalindrome_iff_eq_reverse, by decide, by decide, by decide⟩

theorem isPalindrome_spec_witness :
    isPalindrome ['a', 'b', 'a'] = true :=
  (isPalindrome_spec.1 ['a', 'b', 'a']).mpr (by decide)

/-- Claim C6: removeNthFromEnd never produces a cycle and never dereferences
past the terminal node.  In this embedding: the returned chain is always a
sublist of the input chain (finite, terminating, no node repeated, hence
acyclic), and in the removing case the unlink `trail.next = trail.next.next`
dereferences a real node: the final chain index of `leftPtr` satisfies
`trailIdx + 1 < chainLen`, so `trail.next` is not absent. -/
theorem removeNthFromEnd_safe :
    (∀ (head : List Int) (n : Int), List.Sublist (removeNthFromEnd head n) head) ∧
    (∀ (head : List Int) (n : Int), 1 ≤ n → n.toNat ≤ head.length →
      lockstepIdx (head.length + 1) (head.length + 1) 0 n.toNat + 1 < head.length + 1) := by
  constructor
  · intro head n
    by_cases hv : 1 ≤ n ∧ n.toNat ≤ head.length
    · rw [removeNthFromEnd_eq_eraseIdx head n hv.1 hv.2]
      exact List.eraseIdx_sublist _ _
    · push_neg at hv
      have hcase : head = [] ∨ n ≤ 0 ∨ (head.length : Int) < n := by
        by_cases hn1 : 1 ≤ n
        · have := hv hn1
          right; right; omega
        · right; left; omega
      rw [removeNthFromEnd_eq_self head n hcase]
  · intro head n hn1 hn2
    rw [lockstepIdx_eq _ _ _ _ (by omega) (by omega)]
    omega

theorem removeNthFromEnd_safe_witness :
    List.Sublist (removeNthFromEnd [1, 2, 3] 1) [1, 2, 3] ∧
    lockstepIdx ([1, 2, 3].length + 1) ([1, 2, 3].length + 1) 0 (1 : Int).toNat + 1 <
      [1, 2, 3].length + 1 :=
  ⟨removeNthFromEnd_safe.1 [1, 2, 3] 1,
    removeNthFromEnd_safe.2 [1, 2, 3] 1 (by decide) (by decide)⟩

/-- Claim C7: an input with fewer than 3 elements yields the empty result,
and an input with no zero-sum triplet (no three of its values, as a
sub-permutation, sum to zero) yields the empty result; threeSum never
fails. -/
theorem threeSum_degenerate :
    (∀ nums : List Int, nums.length < 3 → threeSum nums = []) ∧
    (∀ nums : List Int,
      (∀ a b c : Int, List.Subperm [a, b, c] nums → a + b + c ≠ 0) →
      threeSum nums = []) := by
  constructor
  · intro nums hlen
    rw [threeSum_eq_loop]
    have hslen : (List.insertionSort (· ≤ ·) nums).length = nums.length :=
      List.Perm.length_eq (List.perm_insertionSort _ _)
    have hstop : ∀ fuelv,
        threeSumLoop (List.insertionSort (· ≤ ·) nums) fuelv 0 [] = [] := by
      intro fuelv
      cases fuelv with
      | zero => rfl
      | succ f =>
        simp only [threeSumLoop]
        rw [if_neg (by omega)]
    exact hstop _
  · intro nums hno
    by_contra hne
    obtain ⟨t, ht⟩ := List.exists_mem_of_ne_nil _ hne
    obtain ⟨a, b, c, _, hsub, hsum⟩ := threeSum_triple_subperm nums t ht
    exact hno a b c hsub hsum

theorem threeSum_degenerate_witness :
    ([1, 2] : List Int).length < 3 ∧ threeSum [1, 2] = [] :=
  ⟨by decide, threeSum_degenerate.1 [1, 2] (by decide)⟩

/-- Claim C8: threeSum on [-1,0,1,2,-1,-4] yields exactly the triplets
[-1,-1,2] and [-1,0,1] (in emission order, so in particular as a set); on []
it yields the empty result; and every all-zero input of length ≥ 3 yields
exactly the one triplet [0,0,0]. -/
theorem threeSum_concrete :
    threeSum [-1, 0, 1, 2, -1, -4] = [[-1, -1, 2], [-1, 0, 1]] ∧
    threeSum [] = [] ∧
    (∀ k : Nat, 3 ≤ k → threeSum (List.replicate k 0) = [[0, 0, 0]]) :=
  ⟨by decide, by decide, threeSum_replicate⟩

theorem threeSum_concrete_witness :
    3 ≤ 3 ∧ threeSum (List.replicate 3 0) = [[0, 0, 0]] :=
  ⟨by decide, threeSum_concrete.2.2 3 (by decide)⟩

/-- Claim C9: all three operations are deterministic: run on an unmodified
copy of the same input, each returns the same result. -/
theorem operations_deterministic :
    (∀ xs ys : List Int, xs = ys → threeSum xs = threeSum ys) ∧
    (∀ (h1 h2 : List Int) (n m : Int), h1 = h2 → n = m →
      removeNthFromEnd h1 n = removeNthFromEnd h2 m) ∧
    (∀ s t : List Char, s = t → isPalindrome s = isPalindrome t) :=
  ⟨fun _ _ h => by rw [h], fun _ _ _ _ ha hb => by rw [ha, hb], fun _ _ h => by rw [h]⟩

theorem operations_deterministic_witness :
    threeSum [1, 2, -3] = threeSum [1, 2, -3] :=
  operations_deterministic.1 [1, 2, -3] [1, 2, -3] rfl

/-- Claim C10: threeSum sorts the caller's slice in place: after every call
the caller's sequence holds the same multiset of values as before, rearranged
into ascending order. -/
theorem threeSum_sorts_input (nums : List Int) :
    ((threeSumRun nums).1).Perm nums ∧ List.Sorted (· ≤ ·) (threeSumRun nums).1 :=
  ⟨List.perm_insertionSort _ _, List.sorted_insertionSort _ _⟩

end LearnGo
